import Mathlib

/-!
Verification of `ReplaceLLVMIntrinsicsPass` (src/lib/ReplaceLLVMIntrinsicsPass.cpp).

The pass rewrites call sites of four LLVM intrinsic families (llvm.fshl,
llvm.memset, llvm.memcpy, llvm.lifetime.*) into primitive instruction
sequences.  This file gives a shallow embedding of the pass: LLVM types,
call sites and module structure are modelled as inductive data, machine
integers as `Nat` with explicit `% 2 ^ w` (an instruction whose result LLVM
defines as poison, such as a shift by at least the bit width, yields `none`,
and poison propagates through dependent instructions), and fatal paths
(`llvm_unreachable`, failed `assert`) as `Option.none`.
-/

set_option maxRecDepth 8000

namespace Clspv

/-- LLVM types as used by the pass: scalar integers, pointers, fixed arrays,
fixed vectors and struct types with an ordered field list. -/
inductive LLVMType where
  | int (w : Nat)
  | pointer (pointee : LLVMType)
  | array (elem : LLVMType) (n : Nat)
  | vector (elem : LLVMType) (n : Nat)
  | struct (fields : List LLVMType)
  deriving Repr

mutual

/-- Boolean structural equality on `LLVMType` (the derived instance is not
available for this nested inductive). -/
def LLVMType.beq : LLVMType → LLVMType → Bool
  | .int w, .int w' => w == w'
  | .pointer p, .pointer p' => LLVMType.beq p p'
  | .array e n, .array e' n' => LLVMType.beq e e' && n == n'
  | .vector e n, .vector e' n' => LLVMType.beq e e' && n == n'
  | .struct fs, .struct fs' => LLVMType.beqList fs fs'
  | _, _ => false

/-- Pointwise `LLVMType.beq` on lists of field types. -/
def LLVMType.beqList : List LLVMType → List LLVMType → Bool
  | [], [] => true
  | t :: ts, u :: us => LLVMType.beq t u && LLVMType.beqList ts us
  | _, _ => false

end

mutual

def LLVMType.beq_eq : ∀ (a b : LLVMType), LLVMType.beq a b = true → a = b
  | .int _, .int _, h => by
    simp only [LLVMType.beq, beq_iff_eq] at h; exact congrArg _ h
  | .pointer p, .pointer p', h => by
    simp only [LLVMType.beq] at h
    exact congrArg _ (LLVMType.beq_eq p p' h)
  | .array e n, .array e' n', h => by
    simp only [LLVMType.beq, Bool.and_eq_true, beq_iff_eq] at h
    rw [LLVMType.beq_eq e e' h.1, h.2]
  | .vector e n, .vector e' n', h => by
    simp only [LLVMType.beq, Bool.and_eq_true, beq_iff_eq] at h
    rw [LLVMType.beq_eq e e' h.1, h.2]
  | .struct fs, .struct fs', h => by
    simp only [LLVMType.beq] at h
    exact congrArg _ (LLVMType.beqList_eq fs fs' h)
  | .int _, .pointer _, h => by simp [LLVMType.beq] at h
  | .int _, .array _ _, h => by simp [LLVMType.beq] at h
  | .int _, .vector _ _, h => by simp [LLVMType.beq] at h
  | .int _, .struct _, h => by simp [LLVMType.beq] at h
  | .pointer _, .int _, h => by simp [LLVMType.beq] at h
  | .pointer _, .array _ _, h => by simp [LLVMType.beq] at h
  | .pointer _, .vector _ _, h => by simp [LLVMType.beq] at h
  | .pointer _, .struct _, h => by simp [LLVMType.beq] at h
  | .array _ _, .int _, h => by simp [LLVMType.beq] at h
  | .array _ _, .pointer _, h => by simp [LLVMType.beq] at h
  | .array _ _, .vector _ _, h => by simp [LLVMType.beq] at h
  | .array _ _, .struct _, h => by simp [LLVMType.beq] at h
  | .vector _ _, .int _, h => by simp [LLVMType.beq] at h
  | .vector _ _, .pointer _, h => by simp [LLVMType.beq] at h
  | .vector _ _, .array _ _, h => by simp [LLVMType.beq] at h
  | .vector _ _, .struct _, h => by simp [LLVMType.beq] at h
  | .struct _, .int _, h => by simp [LLVMType.beq] at h
  | .struct _, .pointer _, h => by simp [LLVMType.beq] at h
  | .struct _, .array _ _, h => by simp [LLVMType.beq] at h
  | .struct _, .vector _ _, h => by simp [LLVMType.beq] at h

def LLVMType.beqList_eq : ∀ (a b : List LLVMType), LLVMType.beqList a b = true → a = b
  | [], [], _ => rfl
  | t :: ts, u :: us, h => by
    simp only [LLVMType.beqList, Bool.and_eq_true] at h
    rw [LLVMType.beq_eq t u h.1, LLVMType.beqList_eq ts us h.2]
  | [], _ :: _, h => by simp [LLVMType.beqList] at h
  | _ :: _, [], h => by simp [LLVMType.beqList] at h

end

mutual

def LLVMType.beq_refl : ∀ (a : LLVMType), LLVMType.beq a a = true
  | .int _ => by simp [LLVMType.beq]
  | .pointer p => by simp [LLVMType.beq, LLVMType.beq_refl p]
  | .array e _ => by simp [LLVMType.beq, LLVMType.beq_refl e]
  | .vector e _ => by simp [LLVMType.beq, LLVMType.beq_refl e]
  | .struct fs => by simp [LLVMType.beq, LLVMType.beqList_refl fs]

def LLVMType.beqList_refl : ∀ (a : List LLVMType), LLVMType.beqList a a = true
  | [] => rfl
  | t :: ts => by simp [LLVMType.beqList, LLVMType.beq_refl t, LLVMType.beqList_refl ts]

end

instance : DecidableEq LLVMType := fun a b =>
  if h : LLVMType.beq a b = true then isTrue (LLVMType.beq_eq a b h)
  else isFalse (fun he => h (he ▸ LLVMType.beq_refl a))

mutual

/-- Modelled from the spec: `DataLayout::getTypeSizeInBits`.  The data layout
is an input to the pass (it comes with the module, not with this source
file); we model the 32-bit SPIR-V layout with packed structs. -/
def sizeInBits : LLVMType → Nat
  | .int w => w
  | .pointer _ => 32
  | .array e n => n * sizeInBits e
  | .vector e n => n * sizeInBits e
  | .struct fs => structSizeInBits fs

/-- Sum of the field sizes of a struct body. -/
def structSizeInBits : List LLVMType → Nat
  | [] => 0
  | t :: ts => sizeInBits t + structSizeInBits ts

end

/-- Modelled from the spec: `DataLayout::getTypeAllocSize` in bytes. -/
def allocSize (t : LLVMType) : Nat := (sizeInBits t + 7) / 8

mutual

/-- Modelled from the spec: `DataLayout::getABITypeAlignment` in bytes. -/
def abiAlignment : LLVMType → Nat
  | .int w => max 1 ((w + 7) / 8)
  | .pointer _ => 4
  | .array e _ => abiAlignment e
  | .vector e n => max 1 ((n * sizeInBits e + 7) / 8)
  | .struct fs => structAbiAlignment fs

/-- Maximum of the field alignments of a struct body. -/
def structAbiAlignment : List LLVMType → Nat
  | [] => 1
  | t :: ts => max (abiAlignment t) (structAbiAlignment ts)

end

mutual

/-- Structural size of a type; used only as an iteration bound for the
`match_types` while loops (each loop iteration descends one level). -/
def tsize : LLVMType → Nat
  | .int _ => 1
  | .pointer p => 1 + tsize p
  | .array e _ => 1 + tsize e
  | .vector e _ => 1 + tsize e
  | .struct fs => 1 + tsizeList fs

/-- Sum of structural sizes of a field list. -/
def tsizeList : List LLVMType → Nat
  | [] => 0
  | t :: ts => tsize t + tsizeList ts

end

/-- `Type::getPointerElementType` (fails on non-pointers). -/
def pointeeOf : LLVMType → Option LLVMType
  | .pointer p => some p
  | _ => none

/-- `Type::isPointerTy`. -/
def LLVMType.isPointerTy : LLVMType → Bool
  | .pointer _ => true
  | _ => false

/-- `Type::getScalarSizeInBits`: width of a scalar integer, or of the lane
type of a vector; 0 for every other type. -/
def scalarSizeInBits : LLVMType → Nat
  | .int w => w
  | .vector e _ => scalarSizeInBits e
  | _ => 0

/-- `StringRef::startswith` used for name-prefix dispatch over declarations. -/
def startswith (s p : String) : Bool := p.data.isPrefixOf s.data

/-- An IR value as far as this pass inspects one: a constant integer, a
pointer-reinterpretation cast (`BitCastOperator`; `isInst` tells whether it is
a `BitCastInst` rather than a constant expression, and `id` identifies the
instruction for erasure bookkeeping), or any other value of a known type. -/
inductive Value where
  | constInt (w v : Nat)
  | bitCast (id : Nat) (isInst : Bool) (fromTy toTy : LLVMType)
  | someVal (ty : LLVMType)
  deriving DecidableEq

/-- `Value::getType`. -/
def Value.ty : Value → LLVMType
  | .constInt w _ => .int w
  | .bitCast _ _ _ toTy => toTy
  | .someVal t => t

/-- A call-site user of an intrinsic declaration: its positional arguments and
the destination alignment carried by the memory intrinsic. -/
structure CallSite where
  args : List Value
  destAlign : Nat
  deriving DecidableEq

/-- A function of the module: its name and the call sites that invoke it
(the `CallInst` entries of its use list). -/
structure Fn where
  name : String
  users : List CallSite
  deriving DecidableEq

/-- A module: the ordered list of its functions. -/
structure Module where
  funcs : List Fn
  deriving DecidableEq

/-! ## Funnel shift lowering (`replaceFshl`, lines 69-137) -/

/-- `And` instruction on `w`-bit integers. -/
def andInst (w a b : Nat) : Nat := (a &&& b) % 2 ^ w

/-- `Sub` instruction on `w`-bit integers (two's complement wraparound,
assuming `b ≤ 2 ^ w`). -/
def subInst (w a b : Nat) : Nat := (a + (2 ^ w - b)) % 2 ^ w

/-- `Shl` instruction on `w`-bit integers.  LLVM defines the result as
poison (`none`) when the shift amount is at least the bit width. -/
def shlInst (w a b : Nat) : Option Nat :=
  if b ≥ w then none else some ((a <<< b) % 2 ^ w)

/-- `LShr` instruction on `w`-bit integers.  LLVM defines the result as
poison (`none`) when the shift amount is at least the bit width. -/
def lshrInst (w a b : Nat) : Option Nat :=
  if b ≥ w then none else some ((a >>> b) % 2 ^ w)

/-- `Or` instruction on `w`-bit integers; a poison operand makes the result
poison. -/
def orInst (w : Nat) : Option Nat → Option Nat → Option Nat
  | some a, some b => some ((a ||| b) % 2 ^ w)
  | _, _ => none

/-- The width validation at lines 97-100. -/
def fshlValidWidth (w : Nat) : Bool := w == 8 || w == 16 || w == 32 || w == 64

/-- The value that replaces all uses of one `llvm.fshl` call (lines 107-129):
`shift_amount = shift & (w-1)`, `down_amount = w - shift_amount`,
`result = (lo >> down_amount) | (hi << shift_amount)`.  Note that when
`shift & (w-1) = 0` the emitted `LShr` amount is `w` itself, so the result
is poison (`none`). -/
def fshlLowered (w hi lo shift : Nat) : Option Nat :=
  let mod_mask := (w - 1) % 2 ^ w
  let shift_amount := andInst w shift mod_mask
  let scalar_size := w % 2 ^ w
  let down_amount := subInst w scalar_size shift_amount
  let hi_bits := shlInst w hi shift_amount
  let lo_bits := lshrInst w lo down_amount
  orInst w lo_bits hi_bits

/-- The formula the specification states for the lowered funnel shift:
`((hi << (shift mod w)) | (lo >>> (w - shift mod w)))` truncated to `w` bits. -/
def fshlSpecFormula (w hi lo shift : Nat) : Nat :=
  ((hi <<< (shift % w)) ||| (lo >>> (w - shift % w))) % 2 ^ w

/-! ## Module-level funnel shift processing -/

/-- Per-callsite part of `replaceFshl` (lines 90-131): validate the operand
width (fatal otherwise), then set `changed`.  The accumulated `changed` flag
is threaded through. -/
def replaceFshlCalls : List CallSite → Bool → Option Bool
  | [], changed => some changed
  | c :: rest, _ =>
    match c.args.get? 0 with
    | none => none
    | some arg_hi =>
      if fshlValidWidth (scalarSizeInBits arg_hi.ty) then
        replaceFshlCalls rest true
      else none

/-- Loop over the collected `llvm.fshl` declarations (lines 80-134). -/
def replaceFshlFuncs : List Fn → Bool → Option Bool
  | [], changed => some changed
  | f :: rest, changed => do
    let c ← replaceFshlCalls f.users changed
    replaceFshlFuncs rest c

/-- `replaceFshl` (lines 69-137): every declaration whose name starts with
"llvm.fshl" has its call sites rewritten and is erased unconditionally;
`changed` is set per rewritten call site only. -/
def replaceFshl (m : Module) : Option (Module × Bool) := do
  let changed ← replaceFshlFuncs
    (m.funcs.filter (fun f => startswith f.name "llvm.fshl")) false
  some (⟨m.funcs.filter (fun f => !(startswith f.name "llvm.fshl"))⟩, changed)

/-! ## Memset lowering (`replaceMemset`, lines 139-204) -/

/-- Outcome of the initializer check at lines 149-157 for one call site. -/
inductive MemsetScan where
  | collected
  | nullDeref
  | fatalAbort
  deriving DecidableEq

/-- Lines 149-157: `dyn_cast<ConstantInt>` the fill operand.  If the cast
fails, the branch is taken with `Initializer == nullptr` and
`Initializer->print(errs())` dereferences the null pointer before the
`llvm_unreachable` is reached.  If it succeeds with a non-zero value, the
print succeeds and `llvm_unreachable` aborts. -/
def memsetScanArg : Value → MemsetScan
  | .constInt _ v => if v ≠ 0 then .fatalAbort else .collected
  | _ => .nullDeref

/-- Whether the scan loop collects the call for replacement. -/
def memsetScanOk (c : CallSite) : Bool :=
  match c.args.get? 1 with
  | some a => memsetScanArg a == .collected
  | none => false

/-- Lines 164-168: `dyn_cast<BitCastInst>` on the destination operand.
Returns the type of `NewArg` after the optional unwrap, and the id of the
unwrapped cast instruction, if any. -/
def memsetNewArg (a0 : Value) : LLVMType × Option Nat :=
  match a0 with
  | .bitCast id true fromTy _ => (fromTy, some id)
  | v => (v.ty, none)

/-- Element indices of the `StoreInst`s emitted for one zero-fill call
(lines 180-192).  The first store (at the base pointer, element index 0)
is emitted unconditionally; subsequent stores chain one-element GEPs for
`i = 1` to `num_stores - 1`. -/
def memsetStoreIndices (num_stores : Nat) : List Nat :=
  0 :: (if num_stores ≠ 0 then List.range' 1 (num_stores - 1) else [])

/-- Constant-integer argument extraction (`cast<ConstantInt>(...)->getZExtValue()`). -/
def constIntArg (c : CallSite) (i : Nat) : Option Nat :=
  match c.args.get? i with
  | some (.constInt _ v) => some v
  | _ => none

/-- Lowering of one zero-fill call site (lines 163-194): unwrap one
`BitCastInst`, read the constant byte count, divide by the alloc size of the
recovered pointee type (`assert` even division, `assert` the count fits in
32 bits), and emit the stores.  Returns the store element indices and the id
of the cast to erase afterwards. -/
def lowerMemsetCall (c : CallSite) : Option (List Nat × Option Nat) := do
  let a0 ← c.args.get? 0
  let (newArgTy, castId) := memsetNewArg a0
  let NumBytes ← constIntArg c 2
  let PointeeTy ← pointeeOf newArgTy
  let num_stores := NumBytes / allocSize PointeeTy
  if NumBytes = num_stores * allocSize PointeeTy then
    if num_stores &&& 0xFFFFFFFF = num_stores then
      some (memsetStoreIndices num_stores, castId)
    else none
  else none

/-- The id of the destination cast a call site reads, if the destination is a
`BitCastInst`. -/
def memsetCastOf (c : CallSite) : Option Nat :=
  match c.args.get? 0 with
  | some (.bitCast id true _ _) => some id
  | _ => none

/-- The cast ids read by a list of zero-fill call sites, in order. -/
def memsetCasts (calls : List CallSite) : List Nat :=
  calls.filterMap memsetCastOf

/-- The replacement loop of `replaceMemset` (lines 163-199) with instruction
liveness made explicit: `live` is the set of bitcast instructions not yet
erased.  Reading the destination operand of a call whose cast was already
erased is a use after delete and is modelled as `none`.  Each call site's
cast is erased immediately after the call site is processed. -/
def replaceMemsetLoop : List CallSite → List Nat → Option (List (List Nat) × List Nat)
  | [], live => some ([], live)
  | c :: rest, live =>
    match memsetCastOf c with
    | some id =>
      if id ∈ live then do
        let (stores, _) ← lowerMemsetCall c
        let (ss, liveOut) ← replaceMemsetLoop rest (live.erase id)
        some (stores :: ss, liveOut)
      else none
    | none => do
      let (stores, _) ← lowerMemsetCall c
      let (ss, liveOut) ← replaceMemsetLoop rest live
      some (stores :: ss, liveOut)

/-- `replaceMemset` for one function (lines 143-200): for a declaration whose
name starts with "llvm.memset", run the initializer scan over all call-site
users (fatal on a non-zero or non-constant fill), then the replacement loop;
the call sites are erased but the declaration itself is kept.  The initial
live set holds each referenced cast instruction once. -/
def replaceMemsetFn (f : Fn) : Option Fn :=
  if startswith f.name "llvm.memset" then
    if f.users.all memsetScanOk then
      match replaceMemsetLoop f.users ((memsetCasts f.users).dedup) with
      | some _ => some { f with users := [] }
      | none => none
    else none
  else some f

/-- Process each function of the module in order with `g`. -/
def processFuncs (g : Fn → Option Fn) : List Fn → Option (List Fn)
  | [] => some []
  | f :: fs => do
    let f' ← g f
    let fs' ← processFuncs g fs
    some (f' :: fs')

/-- `replaceMemset` (lines 139-204).  `Changed` is declared `false` at line
140 and never assigned, so the function always reports `false`. -/
def replaceMemset (m : Module) : Option (Module × Bool) := do
  let funcs ← processFuncs replaceMemsetFn m.funcs
  some (⟨funcs⟩, false)

/-! ## Memcpy lowering (`replaceMemcpy`, lines 206-422) -/

/-- `descend_type` (lines 218-231): unwrap one level of a struct (first
field), array (element) or vector (lane); any other shape is a fatal
`assert(false)` (this includes an empty struct, where
`getStructElementType(0)` is out of range). -/
def descend_type : LLVMType → Option LLVMType
  | .struct (f :: _) => some f
  | .array e _ => some e
  | .vector e _ => some e
  | _ => none

/-- The first while loop of `match_types` (lines 233-247), with an explicit
iteration bound (each source iteration structurally shrinks one side, so the
loop either exits or hits the fatal `descend_type` assert; `fuel` larger than
the combined structural size reproduces every terminating execution).  While
the side types differ, the side whose bit size is larger or equal descends;
the source branch is tested first, so on exact size ties the source side
descends.  The final source `else` (the "Don't know how to unpack" abort) is
unreachable because `≥` on `Nat` is total, and is subsumed by the
`descend_type` failure case. -/
def match_types_loop (fuel : Nat) (DstElemTy SrcElemTy : LLVMType)
    (NumDstUnpackings NumSrcUnpackings : Nat) :
    Option (LLVMType × LLVMType × Nat × Nat) :=
  match fuel with
  | 0 => none
  | fuel + 1 =>
    if SrcElemTy = DstElemTy then
      some (DstElemTy, SrcElemTy, NumDstUnpackings, NumSrcUnpackings)
    else
      let SrcElemSize := sizeInBits SrcElemTy
      let DstElemSize := sizeInBits DstElemTy
      if SrcElemSize ≥ DstElemSize then
        match descend_type SrcElemTy with
        | some s => match_types_loop fuel DstElemTy s NumDstUnpackings (NumSrcUnpackings + 1)
        | none => none
      else
        match descend_type DstElemTy with
        | some d => match_types_loop fuel d SrcElemTy (NumDstUnpackings + 1) NumSrcUnpackings
        | none => none

/-- The second while loop of `match_types` (lines 249-256): while the byte
count is smaller than the matched element's byte size, descend both sides in
lock step. -/
def match_types_sub (fuel : Nat) (Size : Nat) (DstElemTy SrcElemTy : LLVMType)
    (nd ns : Nat) : Option (LLVMType × LLVMType × Nat × Nat) :=
  match fuel with
  | 0 => none
  | fuel + 1 =>
    let DstElemSize := sizeInBits DstElemTy / 8
    if Size < DstElemSize then
      match descend_type DstElemTy, descend_type SrcElemTy with
      | some d, some s => match_types_sub fuel Size d s (nd + 1) (ns + 1)
      | _, _ => none
    else some (DstElemTy, SrcElemTy, nd, ns)

/-- `match_types` (lines 215-257): returns the matched destination and source
element types together with the unpacking counters. -/
def match_types (Size : Nat) (DstElemTy SrcElemTy : LLVMType) :
    Option (LLVMType × LLVMType × Nat × Nat) := do
  let (d, s, nd, ns) ←
    match_types_loop (tsize DstElemTy + tsize SrcElemTy + 1) DstElemTy SrcElemTy 0 0
  match_types_sub (tsize d + 1) Size d s nd ns

/-- `BitCastOperator` view of a value: the type of its pointer operand, and
the instruction id when the cast is a `BitCastInst` (rather than a constant
expression). -/
def asBitCastOperator (v : Value) : Option (LLVMType × Option Nat) :=
  match v with
  | .bitCast id isInst fromTy _ => some (fromTy, if isInst then some id else none)
  | _ => none

/-- One call emitted to the copy-one-object primitive: either the direct form
`(Dst, Src, Alignment, Volatile)` on the uncast pointers (recorded by their
pointer types), or the element form whose operands are GEPs with the given
index paths. -/
inductive EmittedCopy where
  | direct (dstTy srcTy : LLVMType) (align vol : Nat)
  | indexed (dstIndices srcIndices : List Nat) (align vol : Nat)
  deriving DecidableEq

/-- Result of lowering one memcpy call site: the two unpacking counters, the
matched element type, and the emitted copy-primitive calls. -/
structure LoweredMemcpy where
  nd : Nat
  ns : Nat
  elemTy : LLVMType
  emitted : List EmittedCopy
  deriving DecidableEq

/-- The validation loop of `replaceMemcpy` (lines 264-322): every check is a
source `assert`, so a failure is fatal. -/
def validateMemcpyCall (c : CallSite) : Option Unit := do
  let a0 ← c.args.get? 0
  let a1 ← c.args.get? 1
  let (DstTy, _) ← asBitCastOperator a0
  let (SrcTy, _) ← asBitCastOperator a1
  guard (DstTy.isPointerTy = true)
  guard (SrcTy.isPointerTy = true)
  let Size ← constIntArg c 2
  let DstElemTy0 ← pointeeOf DstTy
  let SrcElemTy0 ← pointeeOf SrcTy
  let (d, s, _, _) ← match_types Size DstElemTy0 SrcElemTy0
  guard (d = s)
  guard (Size % (sizeInBits d / 8) = 0)
  guard (c.destAlign ≥ abiAlignment d)
  guard (c.destAlign % abiAlignment d = 0)
  let _ ← constIntArg c 3
  some ()

/-- The replacement loop body of `replaceMemcpy` for one call site
(lines 325-403): recover the cast operands, re-run `match_types`, then emit
either one direct copy call (when both unpacking counters are zero) or
`Size / DstElemSize` element copy calls whose GEP index paths are the
unpacking count of zeros followed by the loop index. -/
def replaceMemcpyCall (c : CallSite) : Option LoweredMemcpy := do
  let a0 ← c.args.get? 0
  let a1 ← c.args.get? 1
  let (dstPtrTy, _) ← asBitCastOperator a0
  let (srcPtrTy, _) ← asBitCastOperator a1
  let Volatile ← constIntArg c 3
  let Alignment := c.destAlign
  let DstElemTy0 ← pointeeOf dstPtrTy
  let SrcElemTy0 ← pointeeOf srcPtrTy
  let Size ← constIntArg c 2
  let (d, _, NumDstUnpackings, NumSrcUnpackings) ← match_types Size DstElemTy0 SrcElemTy0
  let DstElemSize := sizeInBits d / 8
  if NumSrcUnpackings = 0 ∧ NumDstUnpackings = 0 then
    some ⟨NumDstUnpackings, NumSrcUnpackings, d,
      [.direct dstPtrTy srcPtrTy Alignment Volatile]⟩
  else
    some ⟨NumDstUnpackings, NumSrcUnpackings, d,
      (List.range (Size / DstElemSize)).map (fun i =>
        .indexed (List.replicate NumDstUnpackings 0 ++ [i])
                 (List.replicate NumSrcUnpackings 0 ++ [i]) Alignment Volatile)⟩

/-- Modelled from the spec: the deterministically constructed name of the
native copy-one-object primitive, `clspv::CopyMemoryFunction()`.  Its
definition lives in the repository's Constants.h, which is not part of the
supplied source; per the spec it is a primitive of the downstream target
emitter, not one of the four intrinsic families. -/
def CopyMemoryFunction : String := "spirv.copy_memory"

/-- A call site recorded on a freshly created copy-primitive declaration. -/
def emittedToCall (elemTy : LLVMType) : EmittedCopy → CallSite
  | .direct dstTy srcTy a v =>
    ⟨[.someVal dstTy, .someVal srcTy, .constInt 32 a, .constInt 32 v], 0⟩
  | .indexed _ _ a v =>
    ⟨[.someVal (.pointer elemTy), .someVal (.pointer elemTy),
      .constInt 32 a, .constInt 32 v], 0⟩

/-- Run the validation loop over all collected call sites. -/
def validateAllMemcpy : List CallSite → Option Unit
  | [] => some ()
  | c :: rest => do
    let _ ← validateMemcpyCall c
    validateAllMemcpy rest

/-- The replacement loop over all collected call sites, collecting the
`Function::Create`d copy-primitive declarations (one per call site whose
emission loop runs at least once; the loop body creates the declaration
lazily on its first iteration). -/
def lowerMemcpyCalls : List CallSite → Option (List Fn)
  | [] => some []
  | c :: rest => do
    let lowered ← replaceMemcpyCall c
    let fns ← lowerMemcpyCalls rest
    match lowered.emitted with
    | [] => some fns
    | es => some (⟨CopyMemoryFunction, es.map (emittedToCall lowered.elemTy)⟩ :: fns)

/-- `replaceMemcpy` for one function (lines 259-418): for a declaration whose
name starts with "llvm.memcpy", validate then lower every call-site user.
The call sites are erased and the created copy-primitive declarations are
added to the module; the intrinsic declaration itself is kept.  Bitcast
erasure is deferred into the deduplicated `BitCastsToForget` set and drained
after the loop, so no call site ever reads an erased cast. -/
def replaceMemcpyFn (f : Fn) : Option (Fn × List Fn) :=
  if startswith f.name "llvm.memcpy" then do
    let _ ← validateAllMemcpy f.users
    let newFns ← lowerMemcpyCalls f.users
    some ({ f with users := [] }, newFns)
  else some (f, [])

/-- Process every function, accumulating created declarations. -/
def processMemcpyFuncs : List Fn → Option (List Fn × List Fn)
  | [] => some ([], [])
  | f :: fs => do
    let (f', new1) ← replaceMemcpyFn f
    let (rest, new2) ← processMemcpyFuncs fs
    some (f' :: rest, new1 ++ new2)

/-- `replaceMemcpy` (lines 206-422).  `Changed` is declared `false` at line
207 and never assigned, so the function always reports `false`.  Created
copy-primitive declarations are appended to the module. -/
def replaceMemcpy (m : Module) : Option (Module × Bool) := do
  let (fs, newFns) ← processMemcpyFuncs m.funcs
  some (⟨fs ++ newFns⟩, false)

/-! ## Lifetime marker elision and the pass driver -/

/-- `removeLifetimeDeclarations` (lines 424-450): snapshot the declarations
whose name starts with "llvm.lifetime.", erase each one's call-site users and
then the declaration; `Changed` is set per declaration found. -/
def removeLifetimeDeclarations (m : Module) : Module × Bool :=
  let WorkList := m.funcs.filter (fun f => startswith f.name "llvm.lifetime.")
  (⟨m.funcs.filter (fun f => !(startswith f.name "llvm.lifetime."))⟩, !WorkList.isEmpty)

/-- `runOnModule` (lines 56-67): lifetime elision first, then fshl, memset,
memcpy; the result is the OR of the four reported flags. -/
def runOnModule (m : Module) : Option (Module × Bool) := do
  let (m1, c1) := removeLifetimeDeclarations m
  let (m2, c2) ← replaceFshl m1
  let (m3, c3) ← replaceMemset m2
  let (m4, c4) ← replaceMemcpy m3
  some (m4, c1 || c2 || c3 || c4)

/-- A function is in lowered form: it belongs to neither erased declaration
family, and if it is a kept block-fill or block-copy declaration it has no
remaining call sites. -/
def FnLowered (f : Fn) : Prop :=
  startswith f.name "llvm.lifetime." = false ∧
  startswith f.name "llvm.fshl" = false ∧
  (startswith f.name "llvm.memset" = true → f.users = []) ∧
  (startswith f.name "llvm.memcpy" = true → f.users = [])

/-- A module is in lowered form when all its functions are. -/
def ModuleLowered (m : Module) : Prop := ∀ f ∈ m.funcs, FnLowered f

/-! ## Concrete example inputs used by witnesses and counterexamples -/

/-- A zero-fill call `llvm.memset(bitcast (i32* → i8*) inst 1, i8 0, i64 8, i1 false)`. -/
def exMemsetCall : CallSite :=
  ⟨[.bitCast 1 true (.pointer (.int 32)) (.pointer (.int 8)),
    .constInt 8 0, .constInt 64 8, .constInt 1 0], 4⟩

/-- A module whose only intrinsic use is one zero-fill call site. -/
def exMemsetModule : Module := ⟨[⟨"llvm.memset.p0i8.i64", [exMemsetCall]⟩]⟩

/-- `exMemsetModule` after the pass: the call site is gone, the declaration stays. -/
def exMemsetModuleAfter : Module := ⟨[⟨"llvm.memset.p0i8.i64", []⟩]⟩

/-- A zero-fill call with byte count 0 over an `i32` destination. -/
def exMemsetZeroCall : CallSite :=
  ⟨[.someVal (.pointer (.int 32)), .constInt 8 0, .constInt 64 0, .constInt 1 0], 4⟩

/-- A module with a zero-fill call of 4 bytes through a bitcast. -/
def exResidualCall : CallSite :=
  ⟨[.bitCast 7 true (.pointer (.int 32)) (.pointer (.int 8)),
    .constInt 8 0, .constInt 32 4, .constInt 1 0], 4⟩

/-- A module used to exhibit the surviving block-fill declaration. -/
def exResidualModule : Module := ⟨[⟨"llvm.memset.p0i8.i32", [exResidualCall]⟩]⟩

/-- `exResidualModule` after the pass. -/
def exResidualModuleAfter : Module := ⟨[⟨"llvm.memset.p0i8.i32", []⟩]⟩

/-- A block-copy call `llvm.memcpy(bitcast ([4 x i32]* → i8*), bitcast (i32* → i8*),
i64 16, i1 false)` with destination alignment 4. -/
def exMemcpyCall : CallSite :=
  ⟨[.bitCast 1 true (.pointer (.array (.int 32) 4)) (.pointer (.int 8)),
    .bitCast 2 true (.pointer (.int 32)) (.pointer (.int 8)),
    .constInt 64 16, .constInt 1 0], 4⟩

/-- The lowering result for `exMemcpyCall`: one destination unpacking, no
source unpackings, element type `i32`, four element copies. -/
def exMemcpyOut : LoweredMemcpy :=
  ⟨1, 0, .int 32,
   [.indexed [0, 0] [0] 4 0, .indexed [0, 1] [1] 4 0,
    .indexed [0, 2] [2] 4 0, .indexed [0, 3] [3] 4 0]⟩

/-- A module holding an `llvm.fshl` declaration with no call sites. -/
def exFshlModule : Module := ⟨[⟨"llvm.fshl.i32", []⟩, ⟨"foo", []⟩]⟩

/-- Two zero-fill calls through two distinct bitcast instructions. -/
def exMemsetCallCastA : CallSite :=
  ⟨[.bitCast 1 true (.pointer (.int 32)) (.pointer (.int 8)),
    .constInt 8 0, .constInt 64 4, .constInt 1 0], 4⟩

/-- Companion of `exMemsetCallCastA` with a second cast instruction. -/
def exMemsetCallCastB : CallSite :=
  ⟨[.bitCast 2 true (.pointer (.int 32)) (.pointer (.int 8)),
    .constInt 8 0, .constInt 64 4, .constInt 1 0], 4⟩

/-! ## General lemmas about the embedding -/

/-- Truncation to `w` bits distributes over bitwise or. -/
theorem or_mod_two_pow (a b n : Nat) : (a ||| b) % 2 ^ n = a % 2 ^ n ||| b % 2 ^ n := by
  apply Nat.eq_of_testBit_eq
  intro i
  by_cases h : i < n <;>
    simp [Nat.testBit_mod_two_pow, Nat.testBit_or, h]

/-! ## C9: the initializer diagnostic paths of replaceMemset -/

/-- C9. The scan of a zero-fill call's fill-value operand (lines 149-157)
dereferences a null pointer while printing the diagnostic exactly when the
operand is not a constant integer, and reaches the clean
`llvm_unreachable` abort exactly when the operand is a constant integer with
a non-zero value. -/
theorem memset_initializer_diagnostic_paths (a : Value) :
    (memsetScanArg a = .nullDeref ↔ ∀ w v, a ≠ .constInt w v) ∧
    (memsetScanArg a = .fatalAbort ↔ ∃ w v, v ≠ 0 ∧ a = .constInt w v) := by
  cases a with
  | constInt w v =>
    constructor
    · constructor
      · intro h
        by_cases hv : v = 0 <;> simp [memsetScanArg, hv] at h
      · intro h
        exact absurd rfl (h w v)
    · constructor
      · intro h
        by_cases hv : v = 0
        · simp [memsetScanArg, hv] at h
        · exact ⟨w, v, hv, rfl⟩
      · rintro ⟨w', v', hv', he⟩
        injection he with h1 h2
        subst h1; subst h2
        simp [memsetScanArg, hv']
  | bitCast id isInst fromTy toTy => simp [memsetScanArg]
  | someVal t => simp [memsetScanArg]

/-! ## C5: the tie-break direction in the match_types loop -/

/-- C5 (amended). One iteration of the type-match loop on unequal types of
exactly equal bit size descends the SOURCE side, incrementing the source
unpacking counter, because the `SrcElemSize >= DstElemSize` branch is tested
first. -/
theorem match_types_tie_descends_source (fuel : Nat) (dst src : LLVMType)
    (nd ns : Nat) (hne : src ≠ dst) (hsz : sizeInBits src = sizeInBits dst) :
    match_types_loop (fuel + 1) dst src nd ns =
      match descend_type src with
      | some s => match_types_loop fuel dst s nd (ns + 1)
      | none => none := by
  simp only [match_types_loop]
  rw [if_neg hne, if_pos (ge_of_eq hsz)]

/-- C5 counterexample: for the unequal, equal-sized pair
(DstElemTy = i32, SrcElemTy = <1 x i32>) the completed loop reports
`NumDstUnpackings = 0`, `NumSrcUnpackings = 1`: the destination side was
never unwrapped, refuting the claimed destination-first tie-break. -/
theorem match_types_tie_not_dst_first :
    sizeInBits (.vector (.int 32) 1) = sizeInBits (.int 32) ∧
    (LLVMType.vector (.int 32) 1) ≠ (.int 32) ∧
    match_types_loop 3 (.int 32) (.vector (.int 32) 1) 0 0 =
      some (.int 32, .int 32, 0, 1) := by decide

/-- Witness for `match_types_tie_descends_source` at a concrete tie. -/
theorem match_types_tie_descends_source_witness :
    (LLVMType.vector (.int 32) 1 ≠ .int 32) ∧
    match_types_loop (2 + 1) (.int 32) (.vector (.int 32) 1) 0 0 =
      (match descend_type (.vector (.int 32) 1) with
       | some s => match_types_loop 2 (.int 32) s 0 (0 + 1)
       | none => none) :=
  ⟨by decide,
   match_types_tie_descends_source 2 (.int 32) (.vector (.int 32) 1) 0 0
     (by decide) (by decide)⟩

/-! ## C3: the store sequence emitted by zero-fill lowering -/

/-- C3 (amended).  For a zero-fill call site whose recovered element type is
`E` and byte count is `N`, with `N` an exact multiple of `sizeOf(E)` (the
division assert) and a 32-bit store count: the lowering erases the call and
emits stores at indices `memsetStoreIndices (N / sizeOf E)`, which for a
non-zero count is exactly `0, 1, ..., count-1` in strictly increasing order;
for count 0, however, the unconditional first store still runs, so a single
store at index 0 is emitted rather than none. -/
theorem memset_zero_fill_store_indices (c : CallSite) (a0 : Value)
    (newTy E : LLVMType) (castId : Option Nat) (N : Nat)
    (h0 : c.args.get? 0 = some a0)
    (hna : memsetNewArg a0 = (newTy, castId))
    (hptr : pointeeOf newTy = some E)
    (h2 : constIntArg c 2 = some N)
    (hdiv : N = N / allocSize E * allocSize E)
    (hfit : N / allocSize E &&& 0xFFFFFFFF = N / allocSize E) :
    lowerMemsetCall c = some (memsetStoreIndices (N / allocSize E), castId) ∧
    (N / allocSize E ≠ 0 →
      memsetStoreIndices (N / allocSize E) = List.range (N / allocSize E)) ∧
    (memsetStoreIndices (N / allocSize E)).Pairwise (· < ·) ∧
    memsetStoreIndices 0 = [0] := by
  have hrange : ∀ k : Nat, memsetStoreIndices (k + 1) = List.range (k + 1) := by
    intro k
    rw [memsetStoreIndices, if_pos (Nat.succ_ne_zero k), Nat.add_sub_cancel,
        List.range_eq_range', List.range'_succ]
  refine ⟨?_, ?_, ?_, rfl⟩
  · rw [lowerMemsetCall]
    simp only [h0, h2, hna, hptr, Option.bind_eq_bind, Option.some_bind]
    simp only [if_pos hdiv, if_pos hfit]
  · intro hq
    obtain ⟨k, hk⟩ := Nat.exists_eq_succ_of_ne_zero hq
    rw [hk]
    exact hrange k
  · cases hq : N / allocSize E with
    | zero => simp [memsetStoreIndices]
    | succ k => rw [hrange k]; exact List.pairwise_lt_range _

/-- C3 counterexample: a zero-fill of 0 bytes over an `i32` destination
(store count `0 / 4 = 0`) still emits one store (at index 0), not zero
stores. -/
theorem memset_zero_count_still_stores :
    constIntArg exMemsetZeroCall 2 = some 0 ∧
    (0 : Nat) / allocSize (.int 32) = 0 ∧
    lowerMemsetCall exMemsetZeroCall = some ([0], none) ∧
    ([0] : List Nat) ≠ [] := by decide

/-- Witness for `memset_zero_fill_store_indices` on an 8-byte fill over
`i32` (store count 2). -/
theorem memset_zero_fill_store_indices_witness :
    lowerMemsetCall exMemsetCall =
      some (memsetStoreIndices (8 / allocSize (.int 32)), some 1) ∧
    (8 / allocSize (.int 32) ≠ 0 →
      memsetStoreIndices (8 / allocSize (.int 32)) =
        List.range (8 / allocSize (.int 32))) ∧
    (memsetStoreIndices (8 / allocSize (.int 32))).Pairwise (· < ·) ∧
    memsetStoreIndices 0 = [0] :=
  memset_zero_fill_store_indices exMemsetCall
    (.bitCast 1 true (.pointer (.int 32)) (.pointer (.int 8)))
    (.pointer (.int 32)) (.int 32) (some 1) 8
    (by decide) (by decide) (by decide) (by decide) (by decide) (by decide)

/-! ## C4: the funnel-shift-left lowering formula -/

/-- C4 (amended).  For each valid width, when `shift mod w ≠ 0` the lowered
funnel shift is defined and equals the spec formula
`((hi << (shift mod w)) | (lo >>> (w - shift mod w))) mod 2^w`; when
`shift mod w = 0` the emitted logical right shift has amount `w`, which LLVM
defines as poison, so the substituted value is poison — in particular it is
not `lo`. -/
theorem fshl_lowered_eq_formula (w hi lo shift : Nat)
    (hw : w = 8 ∨ w = 16 ∨ w = 32 ∨ w = 64)
    (hhi : hi < 2 ^ w) (hlo : lo < 2 ^ w) (hshift : shift < 2 ^ w) :
    (shift % w ≠ 0 →
      fshlLowered w hi lo shift = some (fshlSpecFormula w hi lo shift)) ∧
    (shift % w = 0 → fshlLowered w hi lo shift = none) := by
  obtain ⟨k, hk⟩ : ∃ k, w = 2 ^ k := by
    rcases hw with rfl | rfl | rfl | rfl
    · exact ⟨3, rfl⟩
    · exact ⟨4, rfl⟩
    · exact ⟨5, rfl⟩
    · exact ⟨6, rfl⟩
  have hw0 : 0 < w := by rcases hw with rfl | rfl | rfl | rfl <;> norm_num
  have hm_lt : shift % w < w := Nat.mod_lt _ hw0
  have hwlt : w < 2 ^ w := Nat.lt_two_pow w
  have hmask : (w - 1) % 2 ^ w = w - 1 := Nat.mod_eq_of_lt (by omega)
  have hsa : andInst w shift ((w - 1) % 2 ^ w) = shift % w := by
    rw [hmask, andInst, hk, Nat.and_pow_two_sub_one_eq_mod, ← hk,
        Nat.mod_eq_of_lt (lt_trans hm_lt hwlt)]
  have hda : subInst w (w % 2 ^ w) (shift % w) = w - shift % w := by
    rw [subInst, Nat.mod_eq_of_lt hwlt]
    have h1 : w + (2 ^ w - shift % w) = 2 ^ w + (w - shift % w) := by omega
    rw [h1, Nat.add_mod_left, Nat.mod_eq_of_lt (by omega)]
  have hlshr_le : lo >>> (w - shift % w) < 2 ^ w := by
    rw [Nat.shiftRight_eq_div_pow]
    exact lt_of_le_of_lt (Nat.div_le_self _ _) hlo
  constructor
  · intro hnz
    rw [fshlLowered]
    simp only [hsa, hda]
    rw [shlInst, if_neg (by omega : ¬ shift % w ≥ w),
        lshrInst, if_neg (by omega : ¬ w - shift % w ≥ w)]
    simp only [orInst, Option.some.injEq]
    rw [fshlSpecFormula,
        Nat.mod_eq_of_lt hlshr_le, or_mod_two_pow, or_mod_two_pow,
        Nat.mod_mod_of_dvd _ dvd_rfl, Nat.mod_eq_of_lt hlshr_le,
        Nat.or_comm]
  · intro hz
    rw [fshlLowered]
    simp only [hsa, hda]
    rw [hz, Nat.sub_zero]
    rw [lshrInst, if_pos (le_refl w),
        shlInst, if_neg (by omega : ¬ (0 : Nat) ≥ w)]
    rfl

/-- C4 counterexample: at width 8, `hi = 1`, `lo = 2`, `shift = 0` (so
`shift mod w = 0`) the lowered value is poison (the emitted `LShr` amount is
the full width 8), so it is neither `lo` = 2 nor the defined value of the
claimed formula. -/
theorem fshl_zero_shift_not_lo :
    (0 : Nat) % 8 = 0 ∧ fshlLowered 8 1 2 0 = none ∧
    fshlLowered 8 1 2 0 ≠ some 2 ∧
    fshlLowered 8 1 2 0 ≠ some (fshlSpecFormula 8 1 2 0) := by
  decide

/-- Witness for `fshl_lowered_eq_formula` at width 8 and shift 3. -/
theorem fshl_lowered_eq_formula_witness :
    ((3 : Nat) % 8 ≠ 0 →
      fshlLowered 8 0xAB 0xCD 3 = some (fshlSpecFormula 8 0xAB 0xCD 3)) ∧
    ((3 : Nat) % 8 = 0 → fshlLowered 8 0xAB 0xCD 3 = none) :=
  fshl_lowered_eq_formula 8 0xAB 0xCD 3 (Or.inl rfl)
    (by decide) (by decide) (by decide)

/-! ## Lemmas about the module-level processing -/

/-- If every collected fshl declaration has no call sites, the fshl loop
reports the incoming flag unchanged. -/
theorem replaceFshlFuncs_no_users :
    ∀ (l : List Fn) (b : Bool), (∀ f ∈ l, f.users = []) →
      replaceFshlFuncs l b = some b := by
  intro l
  induction l with
  | nil => intro b _; rfl
  | cons f fs ih =>
    intro b h
    have hf : f.users = [] := h f (by simp)
    have hrest : ∀ g ∈ fs, g.users = [] := fun g hg => h g (by simp [hg])
    simp only [replaceFshlFuncs, hf, replaceFshlCalls, Option.bind_eq_bind,
               Option.some_bind]
    exact ih b hrest

/-- The module produced by a successful `replaceFshl` run is the input with
every fshl declaration filtered out. -/
theorem replaceFshl_some {m m2 : Module} {c : Bool}
    (h : replaceFshl m = some (m2, c)) :
    m2 = ⟨m.funcs.filter (fun f => !(startswith f.name "llvm.fshl"))⟩ := by
  rw [replaceFshl] at h
  cases hb : replaceFshlFuncs
      (m.funcs.filter (fun f => startswith f.name "llvm.fshl")) false with
  | none => rw [hb] at h; simp at h
  | some b =>
    rw [hb] at h
    simp only [Option.bind_eq_bind, Option.some_bind, Option.some.injEq,
               Prod.mk.injEq] at h
    exact h.1.symm

/-- Members of a successful `processFuncs` output come from members of the
input. -/
theorem processFuncs_mem {g : Fn → Option Fn} :
    ∀ {l l' : List Fn}, processFuncs g l = some l' →
      ∀ f' ∈ l', ∃ f ∈ l, g f = some f'
  | [], l', h => by
    simp only [processFuncs, Option.some.injEq] at h
    subst h; intro f' hf'; simp at hf'
  | f :: fs, l', h => by
    rw [processFuncs] at h
    cases hg : g f with
    | none => rw [hg] at h; simp at h
    | some f1 =>
      rw [hg] at h
      cases hrest : processFuncs g fs with
      | none => rw [hrest] at h; simp at h
      | some fs1 =>
        rw [hrest] at h
        simp only [Option.bind_eq_bind, Option.some_bind, Option.some.injEq] at h
        subst h
        intro f' hf'
        rcases List.mem_cons.mp hf' with rfl | hf'
        · exact ⟨f, by simp, hg⟩
        · obtain ⟨f0, hf0, hgf0⟩ := processFuncs_mem hrest f' hf'
          exact ⟨f0, by simp [hf0], hgf0⟩

/-- `processFuncs` is the identity when `g` is. -/
theorem processFuncs_id {g : Fn → Option Fn} :
    ∀ {l : List Fn}, (∀ f ∈ l, g f = some f) → processFuncs g l = some l
  | [], _ => rfl
  | f :: fs, h => by
    have hf : g f = some f := h f (by simp)
    have hrest : processFuncs g fs = some fs :=
      processFuncs_id (fun f' hf' => h f' (by simp [hf']))
    simp [processFuncs, hf, hrest]

/-- What one `replaceMemsetFn` step does to a function. -/
theorem replaceMemsetFn_spec {f f' : Fn} (h : replaceMemsetFn f = some f') :
    f'.name = f.name ∧
    (startswith f.name "llvm.memset" = false → f' = f) ∧
    (startswith f.name "llvm.memset" = true → f'.users = []) := by
  rw [replaceMemsetFn] at h
  by_cases hp : startswith f.name "llvm.memset" = true
  · rw [if_pos hp] at h
    by_cases hall : f.users.all memsetScanOk = true
    · rw [if_pos hall] at h
      cases hloop : replaceMemsetLoop f.users (memsetCasts f.users).dedup with
      | none => rw [hloop] at h; cases h
      | some out =>
        rw [hloop] at h
        cases h
        exact ⟨rfl, fun hc => absurd hp (by simp [hc]), fun _ => rfl⟩
    · rw [if_neg hall] at h; cases h
  · rw [if_neg hp] at h
    cases h
    refine ⟨rfl, fun _ => rfl, fun hc => absurd hc hp⟩

/-- On a lowered function, `replaceMemsetFn` is the identity. -/
theorem replaceMemsetFn_of_lowered {f : Fn} (hl : FnLowered f) :
    replaceMemsetFn f = some f := by
  rw [replaceMemsetFn]
  by_cases hp : startswith f.name "llvm.memset" = true
  · obtain ⟨name, users⟩ := f
    have hu : users = [] := hl.2.2.1 hp
    subst hu
    rw [if_pos hp]
    simp [replaceMemsetLoop, memsetCasts]
  · rw [if_neg hp]

/-- All declarations created by `lowerMemcpyCalls` carry the copy-primitive
name. -/
theorem lowerMemcpyCalls_names :
    ∀ {calls : List CallSite} {fns : List Fn}, lowerMemcpyCalls calls = some fns →
      ∀ g ∈ fns, g.name = CopyMemoryFunction
  | [], fns, h => by
    simp only [lowerMemcpyCalls, Option.some.injEq] at h
    subst h; intro g hg; simp at hg
  | c :: rest, fns, h => by
    rw [lowerMemcpyCalls] at h
    cases hlow : replaceMemcpyCall c with
    | none => rw [hlow] at h; simp at h
    | some low =>
      rw [hlow] at h
      cases hfns : lowerMemcpyCalls rest with
      | none => rw [hfns] at h; simp at h
      | some fns1 =>
        rw [hfns] at h
        simp only [Option.bind_eq_bind, Option.some_bind] at h
        intro g hg
        cases he : low.emitted with
        | nil =>
          rw [he] at h
          simp only [Option.some.injEq] at h
          subst h
          exact lowerMemcpyCalls_names hfns g hg
        | cons e es =>
          rw [he] at h
          simp only [Option.some.injEq] at h
          subst h
          rcases List.mem_cons.mp hg with rfl | hg'
          · rfl
          · exact lowerMemcpyCalls_names hfns g hg'

/-- What one `replaceMemcpyFn` step does to a function. -/
theorem replaceMemcpyFn_spec {f f' : Fn} {new : List Fn}
    (h : replaceMemcpyFn f = some (f', new)) :
    f'.name = f.name ∧
    (startswith f.name "llvm.memcpy" = false → f' = f ∧ new = []) ∧
    (startswith f.name "llvm.memcpy" = true → f'.users = []) ∧
    (∀ g ∈ new, g.name = CopyMemoryFunction) := by
  rw [replaceMemcpyFn] at h
  by_cases hp : startswith f.name "llvm.memcpy" = true
  · rw [if_pos hp] at h
    cases hval : validateAllMemcpy f.users with
    | none => rw [hval] at h; simp at h
    | some u =>
      rw [hval] at h
      cases hfns : lowerMemcpyCalls f.users with
      | none => rw [hfns] at h; simp at h
      | some fns =>
        rw [hfns] at h
        simp only [Option.bind_eq_bind, Option.some_bind, Option.some.injEq,
                   Prod.mk.injEq] at h
        obtain ⟨h1, h2⟩ := h
        subst h2
        rw [← h1]
        exact ⟨rfl, fun hc => absurd hp (by simp [hc]), fun _ => rfl,
               lowerMemcpyCalls_names hfns⟩
  · rw [if_neg hp] at h
    cases h
    exact ⟨rfl, fun _ => ⟨rfl, rfl⟩, fun hc => absurd hc hp, fun g hg => by simp at hg⟩

/-- On a lowered function, `replaceMemcpyFn` is the identity and creates
nothing. -/
theorem replaceMemcpyFn_of_lowered {f : Fn} (hl : FnLowered f) :
    replaceMemcpyFn f = some (f, []) := by
  rw [replaceMemcpyFn]
  by_cases hp : startswith f.name "llvm.memcpy" = true
  · obtain ⟨name, users⟩ := f
    have hu : users = [] := hl.2.2.2 hp
    subst hu
    rw [if_pos hp]
    simp [validateAllMemcpy, lowerMemcpyCalls]
  · rw [if_neg hp]

/-- Members of a successful `processMemcpyFuncs` output. -/
theorem processMemcpyFuncs_mem :
    ∀ {l l' new : List Fn}, processMemcpyFuncs l = some (l', new) →
      (∀ f' ∈ l', ∃ f ∈ l, ∃ ns, replaceMemcpyFn f = some (f', ns)) ∧
      (∀ g ∈ new, g.name = CopyMemoryFunction)
  | [], l', new, h => by
    simp only [processMemcpyFuncs, Option.some.injEq, Prod.mk.injEq] at h
    obtain ⟨h1, h2⟩ := h
    subst h1; subst h2
    exact ⟨fun f' hf' => by simp at hf', fun g hg => by simp at hg⟩
  | f :: fs, l', new, h => by
    rw [processMemcpyFuncs] at h
    cases hfn : replaceMemcpyFn f with
    | none => rw [hfn] at h; simp at h
    | some x =>
      obtain ⟨f1, new1⟩ := x
      rw [hfn] at h
      cases hrest : processMemcpyFuncs fs with
      | none => rw [hrest] at h; simp at h
      | some y =>
        obtain ⟨rest, new2⟩ := y
        rw [hrest] at h
        simp only [Option.bind_eq_bind, Option.some_bind, Option.some.injEq,
                   Prod.mk.injEq] at h
        obtain ⟨h1, h2⟩ := h
        subst h1; subst h2
        obtain ⟨ih1, ih2⟩ := processMemcpyFuncs_mem hrest
        constructor
        · intro f' hf'
          rcases List.mem_cons.mp hf' with rfl | hf'
          · exact ⟨f, by simp, new1, hfn⟩
          · obtain ⟨f0, h0, ns, hns⟩ := ih1 f' hf'
            exact ⟨f0, by simp [h0], ns, hns⟩
        · intro g hg
          rcases List.mem_append.mp hg with hg1 | hg2
          · exact (replaceMemcpyFn_spec hfn).2.2.2 g hg1
          · exact ih2 g hg2

/-- `processMemcpyFuncs` is the identity when each step is. -/
theorem processMemcpyFuncs_id :
    ∀ {l : List Fn}, (∀ f ∈ l, replaceMemcpyFn f = some (f, [])) →
      processMemcpyFuncs l = some (l, [])
  | [], _ => rfl
  | f :: fs, h => by
    have hf := h f (by simp)
    have hrest : processMemcpyFuncs fs = some (fs, []) :=
      processMemcpyFuncs_id (fun f' hf' => h f' (by simp [hf']))
    simp [processMemcpyFuncs, hf, hrest]

/-- Decompose a successful `runOnModule` run into its four stages. -/
theorem runOnModule_parts {m mOut : Module} {c : Bool}
    (h : runOnModule m = some (mOut, c)) :
    ∃ m2 c2 m3 c3 c4,
      replaceFshl (removeLifetimeDeclarations m).1 = some (m2, c2) ∧
      replaceMemset m2 = some (m3, c3) ∧
      replaceMemcpy m3 = some (mOut, c4) := by
  rw [runOnModule] at h
  cases hrl : removeLifetimeDeclarations m with
  | mk m1 c1 =>
  rw [hrl] at h
  dsimp only at h ⊢
  cases hf : replaceFshl m1 with
  | none => rw [hf] at h; simp at h
  | some x =>
    obtain ⟨m2, c2⟩ := x
    rw [hf] at h
    simp only [Option.bind_eq_bind, Option.some_bind] at h
    cases hs : replaceMemset m2 with
    | none => rw [hs] at h; simp at h
    | some y =>
      obtain ⟨m3, c3⟩ := y
      rw [hs] at h
      simp only [Option.bind_eq_bind, Option.some_bind] at h
      cases hcp : replaceMemcpy m3 with
      | none => rw [hcp] at h; simp at h
      | some z =>
        obtain ⟨m4, c4⟩ := z
        rw [hcp] at h
        simp only [Option.bind_eq_bind, Option.some_bind, Option.some.injEq,
                   Prod.mk.injEq] at h
        obtain ⟨h1, _⟩ := h
        subst h1
        exact ⟨m2, c2, m3, c3, c4, rfl, hs, hcp⟩

/-- A successful `replaceMemset` reports false and maps the functions through
`processFuncs`. -/
theorem replaceMemset_some {m m3 : Module} {c : Bool}
    (h : replaceMemset m = some (m3, c)) :
    c = false ∧ processFuncs replaceMemsetFn m.funcs = some m3.funcs := by
  rw [replaceMemset] at h
  cases hp : processFuncs replaceMemsetFn m.funcs with
  | none => rw [hp] at h; simp at h
  | some fs =>
    rw [hp] at h
    simp only [Option.bind_eq_bind, Option.some_bind, Option.some.injEq,
               Prod.mk.injEq] at h
    obtain ⟨h1, h2⟩ := h
    subst h2
    rw [← h1]
    exact ⟨rfl, rfl⟩

/-- A successful `replaceMemcpy` reports false and splits the output into the
processed functions plus the created copy-primitive declarations. -/
theorem replaceMemcpy_some {m m4 : Module} {c : Bool}
    (h : replaceMemcpy m = some (m4, c)) :
    c = false ∧ ∃ fs new, processMemcpyFuncs m.funcs = some (fs, new) ∧
      m4.funcs = fs ++ new := by
  rw [replaceMemcpy] at h
  cases hp : processMemcpyFuncs m.funcs with
  | none => rw [hp] at h; simp at h
  | some x =>
    obtain ⟨fs, new⟩ := x
    rw [hp] at h
    simp only [Option.bind_eq_bind, Option.some_bind, Option.some.injEq,
               Prod.mk.injEq] at h
    obtain ⟨h1, h2⟩ := h
    subst h2
    exact ⟨rfl, fs, new, rfl, by rw [← h1]⟩

/-- After a completed run every function of the output module is in lowered
form: the lifetime and fshl declarations are gone, and the kept
memset/memcpy declarations have no call sites. -/
theorem runOnModule_lowered_inv {m mOut : Module} {c : Bool}
    (h : runOnModule m = some (mOut, c)) : ModuleLowered mOut := by
  obtain ⟨m2, c2, m3, c3, c4, hf, hs, hcp⟩ := runOnModule_parts h
  have hm2 := replaceFshl_some hf
  have hm2mem : ∀ f ∈ m2.funcs, startswith f.name "llvm.lifetime." = false ∧
      startswith f.name "llvm.fshl" = false := by
    intro f hf2
    rw [hm2] at hf2
    simp only at hf2
    have h1 := List.mem_filter.mp hf2
    have hlt : (removeLifetimeDeclarations m).1.funcs =
        m.funcs.filter (fun f => !(startswith f.name "llvm.lifetime.")) := rfl
    rw [hlt] at h1
    have h3 := List.mem_filter.mp h1.1
    exact ⟨by simpa using h3.2, by simpa using h1.2⟩
  obtain ⟨_, hprocs⟩ := replaceMemset_some hs
  obtain ⟨_, fs, new, hproc, hm4⟩ := replaceMemcpy_some hcp
  obtain ⟨hmem1, hnames⟩ := processMemcpyFuncs_mem hproc
  intro f hfOut
  rw [hm4] at hfOut
  rcases List.mem_append.mp hfOut with hin | hnew
  · obtain ⟨f3, hf3, ns, hfn⟩ := hmem1 f hin
    obtain ⟨hname3, hneg3, hpos3, _⟩ := replaceMemcpyFn_spec hfn
    obtain ⟨f2, hf2, hgf2⟩ := processFuncs_mem hprocs f3 hf3
    obtain ⟨hname2, hneg2, hpos2⟩ := replaceMemsetFn_spec hgf2
    obtain ⟨hlife2, hfshl2⟩ := hm2mem f2 hf2
    have hNameEq : f.name = f2.name := by rw [hname3, hname2]
    refine ⟨by rw [hNameEq]; exact hlife2, by rw [hNameEq]; exact hfshl2, ?_, ?_⟩
    · intro hms
      by_cases hcpy : startswith f3.name "llvm.memcpy" = true
      · exact hpos3 hcpy
      · have hff3 : f = f3 := (hneg3 (by simpa using hcpy)).1
        rw [hff3]
        apply hpos2
        rw [← hname2, ← hname3]
        exact hms
    · intro hmc
      apply hpos3
      rw [← hname3]
      exact hmc
  · have hn := hnames f hnew
    refine ⟨by rw [hn]; decide, by rw [hn]; decide, ?_, ?_⟩
    · intro hms; rw [hn] at hms; cases hms
    · intro hmc; rw [hn] at hmc; cases hmc

/-- On a lowered module, lifetime elision does nothing and reports false. -/
theorem removeLifetime_of_lowered {m : Module} (h : ModuleLowered m) :
    removeLifetimeDeclarations m = (m, false) := by
  rw [removeLifetimeDeclarations]
  have h1 : m.funcs.filter (fun f => startswith f.name "llvm.lifetime.") = [] :=
    List.filter_eq_nil_iff.mpr (fun f hf => by simp [(h f hf).1])
  have h2 : m.funcs.filter (fun f => !(startswith f.name "llvm.lifetime.")) = m.funcs :=
    List.filter_eq_self.mpr (fun f hf => by simp [(h f hf).1])
  rw [h1, h2]
  rfl

/-- On a lowered module, fshl lowering does nothing and reports false. -/
theorem replaceFshl_of_lowered {m : Module} (h : ModuleLowered m) :
    replaceFshl m = some (m, false) := by
  rw [replaceFshl]
  have h1 : m.funcs.filter (fun f => startswith f.name "llvm.fshl") = [] :=
    List.filter_eq_nil_iff.mpr (fun f hf => by simp [(h f hf).2.1])
  have h2 : m.funcs.filter (fun f => !(startswith f.name "llvm.fshl")) = m.funcs :=
    List.filter_eq_self.mpr (fun f hf => by simp [(h f hf).2.1])
  rw [h1, h2]
  rfl

/-- On a lowered module, memset lowering does nothing and reports false. -/
theorem replaceMemset_of_lowered {m : Module} (h : ModuleLowered m) :
    replaceMemset m = some (m, false) := by
  rw [replaceMemset,
      processFuncs_id (fun f hf => replaceMemsetFn_of_lowered (h f hf))]
  rfl

/-- On a lowered module, memcpy lowering does nothing and reports false. -/
theorem replaceMemcpy_of_lowered {m : Module} (h : ModuleLowered m) :
    replaceMemcpy m = some (m, false) := by
  rw [replaceMemcpy,
      processMemcpyFuncs_id (fun f hf => replaceMemcpyFn_of_lowered (h f hf))]
  simp only [Option.bind_eq_bind, Option.some_bind, Option.some.injEq,
             Prod.mk.injEq, List.append_nil, and_true]

/-- On a lowered module, the whole pass does nothing and reports false. -/
theorem runOnModule_of_lowered {m : Module} (h : ModuleLowered m) :
    runOnModule m = some (m, false) := by
  rw [runOnModule, removeLifetime_of_lowered h]
  dsimp only
  rw [replaceFshl_of_lowered h]
  simp only [Option.bind_eq_bind, Option.some_bind]
  rw [replaceMemset_of_lowered h]
  simp only [Option.bind_eq_bind, Option.some_bind]
  rw [replaceMemcpy_of_lowered h]
  rfl

/-! ## C7: idempotence of the pass -/

/-- C7.  Running the pass a second time on the output of a completed first
run performs no further mutation and reports no change. -/
theorem runOnModule_idempotent {m mOut : Module} {c : Bool}
    (h : runOnModule m = some (mOut, c)) :
    runOnModule mOut = some (mOut, false) :=
  runOnModule_of_lowered (runOnModule_lowered_inv h)

/-- Witness for `runOnModule_idempotent` on the one-memset-call module. -/
theorem runOnModule_idempotent_witness :
    runOnModule exMemsetModule = some (exMemsetModuleAfter, false) ∧
    runOnModule exMemsetModuleAfter = some (exMemsetModuleAfter, false) :=
  ⟨by decide, runOnModule_idempotent
    (by decide : runOnModule exMemsetModule = some (exMemsetModuleAfter, false))⟩

/-! ## C1: what references remain after the pass -/

/-- C1 (amended).  After the pass, every call site of the four families is
gone and the funnel-shift and lifetime declarations are deleted; the
block-fill and block-copy declarations, however, are kept (with zero
remaining call sites), so the module is not free of references to those two
families. -/
theorem runOnModule_callsites_gone {m mOut : Module} {c : Bool}
    (h : runOnModule m = some (mOut, c)) :
    ∀ f ∈ mOut.funcs,
      startswith f.name "llvm.lifetime." = false ∧
      startswith f.name "llvm.fshl" = false ∧
      (startswith f.name "llvm.memset" = true → f.users = []) ∧
      (startswith f.name "llvm.memcpy" = true → f.users = []) :=
  runOnModule_lowered_inv h

/-- C1 counterexample: after a completed run on a module whose only
intrinsic use was one zero-fill call, the `llvm.memset` declaration is still
present — a residual reference to the block-fill family. -/
theorem runOnModule_memset_decl_survives :
    runOnModule exResidualModule = some (exResidualModuleAfter, false) ∧
    (exResidualModuleAfter.funcs.any fun f =>
      startswith f.name "llvm.memset") = true := by decide

/-- Witness for `runOnModule_callsites_gone`. -/
theorem runOnModule_callsites_gone_witness :
    runOnModule exResidualModule = some (exResidualModuleAfter, false) ∧
    (∀ f ∈ exResidualModuleAfter.funcs,
      startswith f.name "llvm.lifetime." = false ∧
      startswith f.name "llvm.fshl" = false ∧
      (startswith f.name "llvm.memset" = true → f.users = []) ∧
      (startswith f.name "llvm.memcpy" = true → f.users = [])) :=
  ⟨by decide, runOnModule_callsites_gone
    (by decide : runOnModule exResidualModule = some (exResidualModuleAfter, false))⟩

/-! ## C2: the return flag does not track memset/memcpy mutation -/

/-- C2 (code bug).  A module whose only recognized intrinsic uses are
zero-fill call sites is mutated by the pass (the call site is erased), yet
`runOnModule` returns false: `replaceMemset` and `replaceMemcpy` declare
`Changed` and return it without ever setting it. -/
theorem runOnModule_mutates_but_reports_false :
    runOnModule exMemsetModule = some (exMemsetModuleAfter, false) ∧
    exMemsetModuleAfter ≠ exMemsetModule := by decide

/-! ## C10: fshl declarations are erased even with no call sites -/

/-- C10.  For a module containing fshl declarations with zero call sites,
`replaceFshl` erases every such declaration yet reports false. -/
theorem replaceFshl_unused_decl_erased (m : Module)
    (_hdecl : ∃ f ∈ m.funcs, startswith f.name "llvm.fshl" = true)
    (hempty : ∀ f ∈ m.funcs, startswith f.name "llvm.fshl" = true → f.users = []) :
    replaceFshl m =
      some (⟨m.funcs.filter (fun f => !(startswith f.name "llvm.fshl"))⟩, false) ∧
    (∀ f ∈ m.funcs, startswith f.name "llvm.fshl" = true →
      f ∉ m.funcs.filter (fun f => !(startswith f.name "llvm.fshl"))) := by
  constructor
  · rw [replaceFshl]
    have hu : ∀ f ∈ m.funcs.filter (fun f => startswith f.name "llvm.fshl"),
        f.users = [] := by
      intro f hf
      have h1 := List.mem_filter.mp hf
      exact hempty f h1.1 h1.2
    rw [replaceFshlFuncs_no_users _ false hu]
    rfl
  · intro f hf hpref hmem
    have h2 := (List.mem_filter.mp hmem).2
    rw [hpref] at h2
    simp at h2

/-- Witness for `replaceFshl_unused_decl_erased` on a module with an unused
fshl declaration. -/
theorem replaceFshl_unused_decl_erased_witness :
    replaceFshl exFshlModule =
      some (⟨exFshlModule.funcs.filter (fun f => !(startswith f.name "llvm.fshl"))⟩,
        false) ∧
    (∀ f ∈ exFshlModule.funcs, startswith f.name "llvm.fshl" = true →
      f ∉ exFshlModule.funcs.filter (fun f => !(startswith f.name "llvm.fshl"))) :=
  replaceFshl_unused_decl_erased exFshlModule
    ⟨⟨"llvm.fshl.i32", []⟩, by decide, by decide⟩ (by decide)

/-! ## C6: the emission shape of memcpy lowering -/

/-- C6.  For a successfully lowered block-copy call site: if both unpacking
counters are zero, exactly one direct copy-primitive call on the uncast
pointers with (dest, src, alignment, isVolatile) is emitted; otherwise
exactly `Size / elemSize` element copy calls are emitted for loop indices
`i = 0 .. count-1` in increasing order, the i-th addressing its element
through `ND` (respectively `NS`) leading zero indices followed by `i`.  The
original call site is erased (the processed declaration retains no users). -/
theorem memcpy_emission_shape (c : CallSite) (out : LoweredMemcpy)
    (a0 a1 : Value) (dstPtrTy srcPtrTy : LLVMType) (x0 x1 : Option Nat)
    (S v : Nat)
    (h : replaceMemcpyCall c = some out)
    (ha0 : c.args.get? 0 = some a0)
    (ha1 : c.args.get? 1 = some a1)
    (hb0 : asBitCastOperator a0 = some (dstPtrTy, x0))
    (hb1 : asBitCastOperator a1 = some (srcPtrTy, x1))
    (hS : constIntArg c 2 = some S)
    (hv : constIntArg c 3 = some v) :
    (out.nd = 0 ∧ out.ns = 0 →
      out.emitted = [.direct dstPtrTy srcPtrTy c.destAlign v]) ∧
    (¬(out.nd = 0 ∧ out.ns = 0) →
      out.emitted.length = S / (sizeInBits out.elemTy / 8) ∧
      ∀ i (hi : i < out.emitted.length),
        out.emitted.get ⟨i, hi⟩ =
          .indexed (List.replicate out.nd 0 ++ [i])
                   (List.replicate out.ns 0 ++ [i]) c.destAlign v) ∧
    (∀ f f' newFns, replaceMemcpyFn f = some (f', newFns) →
      startswith f.name "llvm.memcpy" = true → f'.users = []) := by
  rw [replaceMemcpyCall] at h
  simp only [ha0, ha1, hb0, hb1, hS, hv, Option.bind_eq_bind,
             Option.some_bind] at h
  cases hd0 : pointeeOf dstPtrTy with
  | none => rw [hd0] at h; simp at h
  | some DstElemTy0 =>
  rw [hd0] at h
  simp only [Option.some_bind] at h
  cases hs0 : pointeeOf srcPtrTy with
  | none => rw [hs0] at h; simp at h
  | some SrcElemTy0 =>
  rw [hs0] at h
  simp only [Option.some_bind] at h
  cases hmt : match_types S DstElemTy0 SrcElemTy0 with
  | none => rw [hmt] at h; simp at h
  | some q =>
  obtain ⟨d, s, nd, ns⟩ := q
  rw [hmt] at h
  simp only [Option.some_bind] at h
  refine ⟨?_, ?_, fun f f' newFns hfn hp => (replaceMemcpyFn_spec hfn).2.2.1 hp⟩
  · intro hcon
    by_cases hz : ns = 0 ∧ nd = 0
    · rw [if_pos hz] at h
      simp only [Option.some.injEq] at h
      subst h
      rfl
    · rw [if_neg hz] at h
      simp only [Option.some.injEq] at h
      subst h
      exact absurd ⟨hcon.2, hcon.1⟩ hz
  · intro hcon
    by_cases hz : ns = 0 ∧ nd = 0
    · rw [if_pos hz] at h
      simp only [Option.some.injEq] at h
      subst h
      exact absurd ⟨hz.2, hz.1⟩ hcon
    · rw [if_neg hz] at h
      simp only [Option.some.injEq] at h
      subst h
      refine ⟨by simp, ?_⟩
      intro i hi
      simp [List.get_eq_getElem]

/-- Witness for `memcpy_emission_shape`: a 16-byte copy from an `i32*` into
a `[4 x i32]*`, lowered to four element copies. -/
theorem memcpy_emission_shape_witness :
    replaceMemcpyCall exMemcpyCall = some exMemcpyOut ∧
    (¬(exMemcpyOut.nd = 0 ∧ exMemcpyOut.ns = 0) →
      exMemcpyOut.emitted.length = 16 / (sizeInBits exMemcpyOut.elemTy / 8) ∧
      ∀ i (hi : i < exMemcpyOut.emitted.length),
        exMemcpyOut.emitted.get ⟨i, hi⟩ =
          .indexed (List.replicate exMemcpyOut.nd 0 ++ [i])
                   (List.replicate exMemcpyOut.ns 0 ++ [i])
                   exMemcpyCall.destAlign 0) :=
  ⟨by decide,
   (memcpy_emission_shape exMemcpyCall exMemcpyOut
      (.bitCast 1 true (.pointer (.array (.int 32) 4)) (.pointer (.int 8)))
      (.bitCast 2 true (.pointer (.int 32)) (.pointer (.int 8)))
      (.pointer (.array (.int 32) 4)) (.pointer (.int 32))
      (some 1) (some 2) 16 0
      (by decide) (by decide) (by decide) (by decide) (by decide)
      (by decide) (by decide)).2.1⟩

/-! ## C8: eager per-call-site erasure of the unwrapped memset cast -/

/-- Facts established by a successful replacement loop run: the casts read
are pairwise distinct and live on entry, every read cast has been erased on
exit, and the surviving live set came from the entry live set. -/
theorem replaceMemsetLoop_some_facts :
    ∀ {calls : List CallSite} {live : List Nat} {out : List (List Nat) × List Nat},
      live.Nodup → replaceMemsetLoop calls live = some out →
      (memsetCasts calls).Nodup ∧ (∀ id ∈ memsetCasts calls, id ∈ live) ∧
      (∀ id ∈ memsetCasts calls, id ∉ out.2) ∧ (∀ id ∈ out.2, id ∈ live)
  | [], live, out, hnd, h => by
    simp only [replaceMemsetLoop, Option.some.injEq] at h
    subst h
    exact ⟨by simp [memsetCasts], by simp [memsetCasts],
           by simp [memsetCasts], fun id hid => hid⟩
  | c :: rest, live, out, hnd, h => by
    rw [replaceMemsetLoop] at h
    cases hco : memsetCastOf c with
    | some id =>
      rw [hco] at h
      dsimp only at h
      by_cases hmem : id ∈ live
      · rw [if_pos hmem] at h
        cases hlc : lowerMemsetCall c with
        | none => rw [hlc] at h; simp at h
        | some p =>
          obtain ⟨stores, castId⟩ := p
          rw [hlc] at h
          cases hrec : replaceMemsetLoop rest (live.erase id) with
          | none => rw [hrec] at h; simp at h
          | some q =>
            obtain ⟨ss, liveOut⟩ := q
            rw [hrec] at h
            simp only [Option.bind_eq_bind, Option.some_bind,
                       Option.some.injEq] at h
            subst h
            obtain ⟨ih1, ih2, ih3, ih4⟩ :=
              replaceMemsetLoop_some_facts (hnd.erase id) hrec
            have hcasts : memsetCasts (c :: rest) = id :: memsetCasts rest := by
              simp [memsetCasts, List.filterMap_cons, hco]
            rw [hcasts]
            have hid_not : id ∉ live.erase id := hnd.not_mem_erase
            refine ⟨?_, ?_, ?_, ?_⟩
            · exact List.nodup_cons.mpr ⟨fun hc => hid_not (ih2 id hc), ih1⟩
            · intro i hi
              rcases List.mem_cons.mp hi with rfl | hi'
              · exact hmem
              · exact List.erase_subset _ _ (ih2 i hi')
            · intro i hi
              rcases List.mem_cons.mp hi with rfl | hi'
              · exact fun hcon => hid_not (ih4 i hcon)
              · exact ih3 i hi'
            · intro i hi
              exact List.erase_subset _ _ (ih4 i hi)
      · rw [if_neg hmem] at h; simp at h
    | none =>
      rw [hco] at h
      dsimp only at h
      cases hlc : lowerMemsetCall c with
      | none => rw [hlc] at h; simp at h
      | some p =>
        obtain ⟨stores, castId⟩ := p
        rw [hlc] at h
        cases hrec : replaceMemsetLoop rest live with
        | none => rw [hrec] at h; simp at h
        | some q =>
          obtain ⟨ss, liveOut⟩ := q
          rw [hrec] at h
          simp only [Option.bind_eq_bind, Option.some_bind,
                     Option.some.injEq] at h
          subst h
          obtain ⟨ih1, ih2, ih3, ih4⟩ := replaceMemsetLoop_some_facts hnd hrec
          have hcasts : memsetCasts (c :: rest) = memsetCasts rest := by
            simp [memsetCasts, List.filterMap_cons, hco]
          rw [hcasts]
          exact ⟨ih1, ih2, ih3, ih4⟩

/-- Distinct live casts and per-call lowerability make the replacement loop
succeed. -/
theorem replaceMemsetLoop_isSome :
    ∀ {calls : List CallSite} {live : List Nat},
      (∀ c ∈ calls, (lowerMemsetCall c).isSome = true) →
      (memsetCasts calls).Nodup →
      (∀ id ∈ memsetCasts calls, id ∈ live) →
      (replaceMemsetLoop calls live).isSome = true
  | [], live, _, _, _ => rfl
  | c :: rest, live, hok, hnd, hin => by
    rw [replaceMemsetLoop]
    have hokc : (lowerMemsetCall c).isSome = true := hok c (by simp)
    obtain ⟨p, hp⟩ := Option.isSome_iff_exists.mp hokc
    obtain ⟨stores, castId⟩ := p
    cases hco : memsetCastOf c with
    | some id =>
      dsimp only
      have hcasts : memsetCasts (c :: rest) = id :: memsetCasts rest := by
        simp [memsetCasts, List.filterMap_cons, hco]
      rw [hcasts] at hnd hin
      have hmem : id ∈ live := hin id (by simp)
      rw [if_pos hmem, hp]
      have hrec : (replaceMemsetLoop rest (live.erase id)).isSome = true :=
        replaceMemsetLoop_isSome
        (fun c' hc' => hok c' (by simp [hc']))
        (List.nodup_cons.mp hnd).2
        (fun i hi => by
          rcases List.nodup_cons.mp hnd with ⟨hnotin, _⟩
          have hil : i ∈ live := hin i (by simp [hi])
          have hne : i ≠ id := fun he => hnotin (he ▸ hi)
          exact (List.mem_erase_of_ne hne).mpr hil)
      obtain ⟨q, hq⟩ := Option.isSome_iff_exists.mp hrec
      obtain ⟨ss, liveOut⟩ := q
      simp only [Option.bind_eq_bind, Option.some_bind]
      rw [hq]
      rfl
    | none =>
      dsimp only
      have hcasts : memsetCasts (c :: rest) = memsetCasts rest := by
        simp [memsetCasts, List.filterMap_cons, hco]
      rw [hcasts] at hnd hin
      rw [hp]
      have hrec : (replaceMemsetLoop rest live).isSome = true :=
        replaceMemsetLoop_isSome (fun c' hc' => hok c' (by simp [hc'])) hnd hin
      obtain ⟨q, hq⟩ := Option.isSome_iff_exists.mp hrec
      obtain ⟨ss, liveOut⟩ := q
      simp only [Option.bind_eq_bind, Option.some_bind]
      rw [hq]
      rfl

/-- C8.  The memset replacement loop erases the unwrapped cast instruction
eagerly, immediately after processing each individual call site (third
conjunct), with no deduplication or deferral: by loop exit every read cast
is erased (second conjunct); and the loop is free of use-after-delete
exactly when each cast feeds at most one zero-fill call site (the read cast
ids are pairwise distinct — first conjunct). -/
theorem memset_cast_erasure_discipline (calls : List CallSite) (live : List Nat)
    (hnd : live.Nodup)
    (hok : ∀ c ∈ calls, (lowerMemsetCall c).isSome = true)
    (hin : ∀ id ∈ memsetCasts calls, id ∈ live) :
    ((replaceMemsetLoop calls live).isSome = true ↔ (memsetCasts calls).Nodup) ∧
    (∀ out, replaceMemsetLoop calls live = some out →
      ∀ id ∈ memsetCasts calls, id ∉ out.2) ∧
    (∀ c rest id, memsetCastOf c = some id → id ∈ live →
      replaceMemsetLoop (c :: rest) live =
        (do
          let (stores, _) ← lowerMemsetCall c
          let (ss, liveOut) ← replaceMemsetLoop rest (live.erase id)
          some (stores :: ss, liveOut))) := by
  refine ⟨⟨?_, ?_⟩, ?_, ?_⟩
  · intro hsome
    obtain ⟨out, hout⟩ := Option.isSome_iff_exists.mp hsome
    exact (replaceMemsetLoop_some_facts hnd hout).1
  · intro hcnd
    exact replaceMemsetLoop_isSome hok hcnd hin
  · intro out hout
    exact (replaceMemsetLoop_some_facts hnd hout).2.2.1
  · intro c rest id hco hmem
    rw [replaceMemsetLoop, hco]
    dsimp only
    rw [if_pos hmem]

/-- Witness for `memset_cast_erasure_discipline`: two zero-fill calls through
two distinct cast instructions. -/
theorem memset_cast_erasure_discipline_witness :
    (replaceMemsetLoop [exMemsetCallCastA, exMemsetCallCastB] [1, 2]).isSome = true ↔
      (memsetCasts [exMemsetCallCastA, exMemsetCallCastB]).Nodup :=
  (memset_cast_erasure_discipline [exMemsetCallCastA, exMemsetCallCastB] [1, 2]
    (by decide) (by decide) (by decide)).1

end Clspv
